import Mathlib

set_option autoImplicit false

namespace Flow

/-! # Logger (src/user-interface/flow-web/src/utils/logger.ts)

Shallow embedding of the `Logger` utility class: log levels, their numeric
priorities, the configuration record, and the `shouldLog` guard that every
log method consults before emitting console output. -/

/-- The four log levels of `logger.ts` (`type LogLevel`). -/
inductive LogLevel where
  | debug
  | info
  | warn
  | error
deriving DecidableEq, Repr

/-- `levelPriority` table from `logger.ts` lines 16-21. -/
def levelPriority : LogLevel → Nat
  | .debug => 0
  | .info => 1
  | .warn => 2
  | .error => 3

/-- `LoggerConfig` from `logger.ts` (the `prefix` field only affects message
formatting, not whether output is emitted, so it is not modelled). -/
structure LoggerConfig where
  enabled : Bool
  minLevel : LogLevel
deriving DecidableEq, Repr

/-- `Logger.shouldLog` (logger.ts lines 37-40):
`if (!this.config.enabled) return false;`
`return this.levelPriority[level] >= this.levelPriority[this.config.minLevel];` -/
def shouldLog (cfg : LoggerConfig) (level : LogLevel) : Bool :=
  if !cfg.enabled then false
  else decide (levelPriority cfg.minLevel ≤ levelPriority level)

/-- `Logger.debug` (logger.ts lines 54-58) emits console output exactly when
`shouldLog('debug')`. -/
def debugEmits (cfg : LoggerConfig) : Bool := shouldLog cfg .debug

/-- `Logger.info` (logger.ts lines 63-67) emits exactly when `shouldLog('info')`. -/
def infoEmits (cfg : LoggerConfig) : Bool := shouldLog cfg .info

/-- `Logger.warn` (logger.ts lines 72-76) emits exactly when `shouldLog('warn')`. -/
def warnEmits (cfg : LoggerConfig) : Bool := shouldLog cfg .warn

/-- `Logger.error` (logger.ts lines 81-85) emits exactly when `shouldLog('error')`,
even though its doc comment says it "always logs even if debug is disabled". -/
def errorEmits (cfg : LoggerConfig) : Bool := shouldLog cfg .error

/-- The emission guard of the method for a given level. -/
def methodEmits (cfg : LoggerConfig) : LogLevel → Bool
  | .debug => debugEmits cfg
  | .info => infoEmits cfg
  | .warn => warnEmits cfg
  | .error => errorEmits cfg

/-! # LWW-Register (spec section 4.1)

Modelled from the spec: the CRDT Type Library is described in the design
documents (spec sections 3-4) but has no implementation in the repository, so
the LWW register is modelled from the spec's words. A write carries
`(timestamp, issuer_did, value)`; conflict is resolved by the
`(timestamp, issuer_did)` lexical tiebreak — higher timestamp wins, on a tie
the higher issuer DID (byte-comparable string) wins. The spec leaves the
same-issuer same-timestamp case open (design note, spec line 98); the model
completes the order by the remaining content (the value) so that the order is
total on distinct writes, as content addressing makes distinct deltas
distinguishable. -/

/-- Modelled from the spec: a single LWW-Register write
(`register-assign` op of spec section 3 with its tiebreak-relevant fields). -/
structure LWWWrite where
  timestamp : Nat
  issuer : String
  value : String
deriving DecidableEq, Repr

/-- Modelled from the spec: the strict `(timestamp, issuer_did)` lexical
tiebreak order of spec section 4.1, completed by the value on a full tie. -/
def lwwPrecedes (a b : LWWWrite) : Bool :=
  decide (a.timestamp < b.timestamp) ||
    (decide (a.timestamp = b.timestamp) &&
      (decide (a.issuer < b.issuer) ||
        (decide (a.issuer = b.issuer) && decide (a.value < b.value))))

/-- Modelled from the spec: LWW merge keeps the write that wins the
`(timestamp, issuer_did)` tiebreak. -/
def lwwMerge (a b : LWWWrite) : LWWWrite :=
  if lwwPrecedes a b then b else a

theorem lwwPrecedes_irrefl (a : LWWWrite) : lwwPrecedes a a = false := by
  simp [lwwPrecedes]

theorem lwwPrecedes_eq_true_iff (a b : LWWWrite) : lwwPrecedes a b = true ↔
    a.timestamp < b.timestamp ∨ (a.timestamp = b.timestamp ∧
      (a.issuer < b.issuer ∨ (a.issuer = b.issuer ∧ a.value < b.value))) := by
  simp [lwwPrecedes]

theorem lwwPrecedes_total {a b : LWWWrite} (hab : lwwPrecedes a b = false)
    (hba : lwwPrecedes b a = false) : a = b := by
  rw [Bool.eq_false_iff, Ne, lwwPrecedes_eq_true_iff] at hab hba
  push_neg at hab hba
  obtain ⟨a1, a2, a3⟩ := a
  obtain ⟨b1, b2, b3⟩ := b
  have h1 : a1 = b1 := le_antisymm hba.1 hab.1
  have h2 : a2 = b2 := le_antisymm (hba.2 h1.symm).1 (hab.2 h1).1
  have h3 : a3 = b3 := le_antisymm ((hba.2 h1.symm).2 h2.symm) ((hab.2 h1).2 h2)
  simp [h1, h2, h3]

theorem lwwPrecedes_trans {a b c : LWWWrite} (h1 : lwwPrecedes a b = true)
    (h2 : lwwPrecedes b c = true) : lwwPrecedes a c = true := by
  simp only [lwwPrecedes, Bool.or_eq_true, Bool.and_eq_true, decide_eq_true_eq] at h1 h2 ⊢
  rcases h1 with h1 | ⟨he1, h1⟩
  · rcases h2 with h2 | ⟨he2, _⟩
    · exact Or.inl (lt_trans h1 h2)
    · exact Or.inl (he2 ▸ h1)
  · rcases h2 with h2 | ⟨he2, h2⟩
    · exact Or.inl (he1 ▸ h2)
    · refine Or.inr ⟨by omega, ?_⟩
      rcases h1 with h1 | ⟨hi1, h1⟩
      · rcases h2 with h2 | ⟨hi2, _⟩
        · exact Or.inl (lt_trans h1 h2)
        · exact Or.inl (hi2 ▸ h1)
      · rcases h2 with h2 | ⟨hi2, h2⟩
        · exact Or.inl (hi1 ▸ h2)
        · exact Or.inr ⟨hi1.trans hi2, lt_trans h1 h2⟩

theorem lwwPrecedes_asymm {a b : LWWWrite} (h : lwwPrecedes a b = true) :
    lwwPrecedes b a = false := by
  cases hba : lwwPrecedes b a with
  | false => rfl
  | true =>
    have := lwwPrecedes_trans h hba
    rw [lwwPrecedes_irrefl] at this
    exact absurd this (by simp)

theorem lwwPrecedes_false_trans {a b c : LWWWrite} (hab : lwwPrecedes a b = false)
    (hbc : lwwPrecedes b c = false) : lwwPrecedes a c = false := by
  cases hac : lwwPrecedes a c with
  | false => rfl
  | true =>
    cases hba : lwwPrecedes b a with
    | true =>
      have := lwwPrecedes_trans hba hac
      rw [this] at hbc
      exact absurd hbc (by simp)
    | false =>
      have heq := lwwPrecedes_total hab hba
      subst heq
      rw [hac] at hbc
      exact absurd hbc (by simp)

theorem lwwMerge_idem (a : LWWWrite) : lwwMerge a a = a := by
  simp [lwwMerge, lwwPrecedes_irrefl]

theorem lwwMerge_comm (a b : LWWWrite) : lwwMerge a b = lwwMerge b a := by
  unfold lwwMerge
  cases hab : lwwPrecedes a b with
  | true => simp [lwwPrecedes_asymm hab]
  | false =>
    cases hba : lwwPrecedes b a with
    | true => simp
    | false => simp [lwwPrecedes_total hab hba]

theorem lwwMerge_assoc (a b c : LWWWrite) :
    lwwMerge (lwwMerge a b) c = lwwMerge a (lwwMerge b c) := by
  unfold lwwMerge
  cases hab : lwwPrecedes a b with
  | true =>
    cases hbc : lwwPrecedes b c with
    | true => simp [hbc, lwwPrecedes_trans hab hbc]
    | false => simp [hbc, hab]
  | false =>
    cases hbc : lwwPrecedes b c with
    | true =>
      simp only [if_true]
      cases hac : lwwPrecedes a c with
      | true => simp [hac]
      | false =>
        cases hca : lwwPrecedes c a with
        | true =>
          have := lwwPrecedes_trans hbc hca
          simp_all
        | false => simp [hac, lwwPrecedes_total hac hca]
    | false => simp [hbc, hab, lwwPrecedes_false_trans hab hbc]

/-- Modelled from the spec: register state is empty or holds the winning
write; merging takes the tiebreak winner (spec sections 3 and 4.1). -/
def lwwMergeOpt : Option LWWWrite → Option LWWWrite → Option LWWWrite
  | none, s => s
  | some a, none => some a
  | some a, some b => some (lwwMerge a b)

theorem lwwMergeOpt_none (s : Option LWWWrite) : lwwMergeOpt none s = s := by
  cases s <;> rfl

theorem lwwMergeOpt_comm (a b : Option LWWWrite) : lwwMergeOpt a b = lwwMergeOpt b a := by
  cases a <;> cases b <;> simp [lwwMergeOpt, lwwMerge_comm]

theorem lwwMergeOpt_assoc (a b c : Option LWWWrite) :
    lwwMergeOpt (lwwMergeOpt a b) c = lwwMergeOpt a (lwwMergeOpt b c) := by
  cases a <;> cases b <;> cases c <;> simp [lwwMergeOpt, lwwMerge_assoc]

theorem lwwMergeOpt_idem (a : Option LWWWrite) : lwwMergeOpt a a = a := by
  cases a <;> simp [lwwMergeOpt, lwwMerge_idem]

instance : Std.Commutative lwwMergeOpt := ⟨lwwMergeOpt_comm⟩

instance : Std.Associative lwwMergeOpt := ⟨lwwMergeOpt_assoc⟩

instance : Std.IdempotentOp lwwMergeOpt := ⟨lwwMergeOpt_idem⟩

/-- Modelled from the spec: a replica's LWW register state after applying, in
arrival order, the writes it has received (spec section 4.3 folds the Delta
set with the CRDT merge). -/
def matLWW (L : List LWWWrite) : Option LWWWrite :=
  L.foldl (fun s w => lwwMergeOpt s (some w)) none

/-! ## Folding arrival lists versus the set of applied Deltas

Bridge: folding a commutative, associative, idempotent merge over an arrival
list depends only on the underlying `Finset` of elements. -/

section FoldBridge

variable {α : Type*} {σ : Type*}
variable (op : σ → σ → σ) (f : α → σ)

theorem foldl_op_shift [Std.Commutative op] [Std.Associative op]
    (e : σ) (he : ∀ s, op e s = s) (L : List α) (init : σ) :
    L.foldl (fun s a => op s (f a)) init = op init (L.foldl (fun s a => op s (f a)) e) := by
  have hcomm : ∀ a b : σ, op a b = op b a := fun a b => Std.Commutative.comm a b
  have hassoc : ∀ a b c : σ, op (op a b) c = op a (op b c) :=
    fun a b c => Std.Associative.assoc a b c
  induction L generalizing init with
  | nil =>
    simp only [List.foldl_nil]
    rw [hcomm init e, he]
  | cons a L ih =>
    simp only [List.foldl_cons]
    rw [ih (op init (f a)), ih (op e (f a)), he, hassoc]

theorem foldl_eq_fold_toFinset [DecidableEq α]
    [Std.Commutative op] [Std.Associative op] [Std.IdempotentOp op]
    (e : σ) (he : ∀ s, op e s = s) (L : List α) :
    L.foldl (fun s a => op s (f a)) e = L.toFinset.fold op e f := by
  induction L with
  | nil => simp
  | cons a L ih =>
    rw [List.toFinset_cons, Finset.fold_insert_idem, ← ih, List.foldl_cons, he,
      foldl_op_shift op f e he L (f a)]

end FoldBridge

theorem matLWW_eq_fold (L : List LWWWrite) :
    matLWW L = L.toFinset.fold lwwMergeOpt none some := by
  exact foldl_eq_fold_toFinset lwwMergeOpt some none lwwMergeOpt_none L

/-! # OR-Set (spec sections 3 and 4.1)

Modelled from the spec: each add carries a unique tag (the delta id); a remove
references the tag(s) being removed. State is the pair of observed tagged adds
and observed removed tags; an element is present iff it has at least one
add-tag not covered by an observed remove referencing that exact tag. -/

/-- Modelled from the spec: an OR-Set Delta op (`set-add/remove with unique
tag`, spec section 3). -/
inductive ORSetDelta where
  | add (elem : String) (tag : Nat)
  | remove (tags : List Nat)
deriving DecidableEq, Repr

/-- Modelled from the spec: OR-Set state — observed tagged adds and observed
removed tags. -/
structure ORSetState where
  adds : Finset (String × Nat)
  removed : Finset Nat
deriving DecidableEq

def emptyORSet : ORSetState := ⟨∅, ∅⟩

/-- Modelled from the spec: the state contributed by a single OR-Set Delta
(`apply(empty, op)` of the spec section 4.1 contract). -/
def deltaState : ORSetDelta → ORSetState
  | .add e t => ⟨{(e, t)}, ∅⟩
  | .remove ts => ⟨∅, ts.toFinset⟩

/-- Modelled from the spec: OR-Set merge — union of observed adds and of
observed removed tags. -/
def orsetMerge (s1 s2 : ORSetState) : ORSetState :=
  ⟨s1.adds ∪ s2.adds, s1.removed ∪ s2.removed⟩

/-- Modelled from the spec: `apply(state, op) = merge(state, apply(empty, op))`
(the spec section 4.1 contract). -/
def applyORSet (s : ORSetState) (d : ORSetDelta) : ORSetState :=
  orsetMerge s (deltaState d)

theorem orsetMerge_empty (s : ORSetState) : orsetMerge emptyORSet s = s := by
  cases s
  simp [orsetMerge, emptyORSet]

theorem orsetMerge_comm (a b : ORSetState) : orsetMerge a b = orsetMerge b a := by
  cases a; cases b
  simp [orsetMerge, Finset.union_comm]

theorem orsetMerge_assoc (a b c : ORSetState) :
    orsetMerge (orsetMerge a b) c = orsetMerge a (orsetMerge b c) := by
  cases a; cases b; cases c
  simp [orsetMerge, Finset.union_assoc]

theorem orsetMerge_idem (a : ORSetState) : orsetMerge a a = a := by
  cases a
  simp [orsetMerge]

instance : Std.Commutative orsetMerge := ⟨orsetMerge_comm⟩

instance : Std.Associative orsetMerge := ⟨orsetMerge_assoc⟩

instance : Std.IdempotentOp orsetMerge := ⟨orsetMerge_idem⟩

/-- Modelled from the spec: a replica's OR-Set state after applying, in arrival
order, the Deltas it has received. -/
def matORSet (L : List ORSetDelta) : ORSetState :=
  L.foldl applyORSet emptyORSet

theorem matORSet_eq_fold (L : List ORSetDelta) :
    matORSet L = L.toFinset.fold orsetMerge emptyORSet deltaState := by
  exact foldl_eq_fold_toFinset orsetMerge deltaState emptyORSet orsetMerge_empty L

/-! # Sequence CRDT, RGA-style (spec section 4.1)

Modelled from the spec: each insert references a position anchor (the id of
the element it follows, or the start sentinel) and carries a unique id;
deletes mark an id as tombstoned rather than physically removing it,
preserving relative order for concurrent inserts anchored at the same
predecessor, tie-broken by id ordering. The CRDT state is the pair of
observed inserts and observed tombstones, merged by union; the visible
sequence is read off the state by an anchor-tree traversal. -/

/-- Modelled from the spec: one observed sequence insert — its unique id, its
position anchor (`none` is the start sentinel) and its value. -/
structure SeqIns where
  id : Nat
  anchor : Option Nat
  value : String
deriving DecidableEq, Repr

/-- Modelled from the spec: a sequence Delta op (`sequence-insert/delete with
position token`, spec section 3) — insert after an anchor, or tombstone an id. -/
inductive SeqDelta where
  | insert (id : Nat) (anchor : Option Nat) (value : String)
  | delete (id : Nat)
deriving DecidableEq, Repr

/-- Modelled from the spec: sequence CRDT state — observed inserts and
observed tombstones. -/
structure SeqState where
  inserts : Finset SeqIns
  tombstones : Finset Nat
deriving DecidableEq

def emptySeq : SeqState := ⟨∅, ∅⟩

/-- Modelled from the spec: the state contributed by a single sequence Delta. -/
def seqDeltaState : SeqDelta → SeqState
  | .insert i a v => ⟨{⟨i, a, v⟩}, ∅⟩
  | .delete i => ⟨∅, {i}⟩

/-- Modelled from the spec: sequence merge — union of observed inserts and of
observed tombstones. -/
def seqMerge (s1 s2 : SeqState) : SeqState :=
  ⟨s1.inserts ∪ s2.inserts, s1.tombstones ∪ s2.tombstones⟩

/-- Modelled from the spec: `apply(state, op) = merge(state, apply(empty, op))`
(the spec section 4.1 contract). -/
def applySeq (s : SeqState) (d : SeqDelta) : SeqState :=
  seqMerge s (seqDeltaState d)

theorem seqMerge_empty (s : SeqState) : seqMerge emptySeq s = s := by
  cases s
  simp [seqMerge, emptySeq]

theorem seqMerge_comm (a b : SeqState) : seqMerge a b = seqMerge b a := by
  cases a; cases b
  simp [seqMerge, Finset.union_comm]

theorem seqMerge_assoc (a b c : SeqState) :
    seqMerge (seqMerge a b) c = seqMerge a (seqMerge b c) := by
  cases a; cases b; cases c
  simp [seqMerge, Finset.union_assoc]

theorem seqMerge_idem (a : SeqState) : seqMerge a a = a := by
  cases a
  simp [seqMerge]

instance : Std.Commutative seqMerge := ⟨seqMerge_comm⟩

instance : Std.Associative seqMerge := ⟨seqMerge_assoc⟩

instance : Std.IdempotentOp seqMerge := ⟨seqMerge_idem⟩

/-- Modelled from the spec: a replica's sequence CRDT state after applying, in
arrival order, the Deltas it has received. -/
def matSeq (L : List SeqDelta) : SeqState :=
  L.foldl applySeq emptySeq

theorem matSeq_eq_fold (L : List SeqDelta) :
    matSeq L = L.toFinset.fold seqMerge emptySeq seqDeltaState := by
  exact foldl_eq_fold_toFinset seqMerge seqDeltaState emptySeq seqMerge_empty L

/-- A sorted enumeration of a finite set (insertion sort, so that concrete
states evaluate). -/
def sortedList {α : Type*} [LinearOrder α] (s : Finset α) : List α :=
  Quotient.liftOn s.val (List.insertionSort (· ≤ ·)) fun a b h =>
    List.eq_of_perm_of_sorted
      ((List.perm_insertionSort _ a).trans (h.trans (List.perm_insertionSort _ b).symm))
      (List.sorted_insertionSort _ a) (List.sorted_insertionSort _ b)

/-- Ids inserted directly after `anchor`, highest id first (spec: concurrent
inserts at the same anchor are tie-broken by id ordering). -/
def seqChildIds (s : SeqState) (anchor : Option Nat) : List Nat :=
  (sortedList ((s.inserts.filter fun e => e.anchor = anchor).image SeqIns.id)).reverse

/-- The values recorded for an id (exactly one when ids are unique as the
spec requires; sorted for determinism regardless). -/
def seqValuesAt (s : SeqState) (i : Nat) : List String :=
  sortedList ((s.inserts.filter fun e => e.id = i).image SeqIns.value)

/-- RGA-style traversal: walk the anchor tree depth first, emitting the values
of non-tombstoned elements; `fuel` bounds the depth. -/
def seqGo (s : SeqState) : Nat → Option Nat → List String
  | 0, _ => []
  | fuel + 1, anchor =>
    (seqChildIds s anchor).foldr
      (fun i acc =>
        (if i ∈ s.tombstones then [] else seqValuesAt s i) ++ seqGo s fuel (some i) ++ acc)
      []

/-- Modelled from the spec: the visible sequence read off the CRDT state —
tombstoned ids keep anchoring concurrent inserts but contribute no value. -/
def seqLinearize (s : SeqState) : List String :=
  seqGo s (s.inserts.card + 1) none

/-- The tagged adds observed in a Delta list. -/
def addPairs : List ORSetDelta → Finset (String × Nat)
  | [] => ∅
  | .add e t :: L => insert (e, t) (addPairs L)
  | .remove _ :: L => addPairs L

/-- The tags referenced by the removes observed in a Delta list. -/
def removedTags : List ORSetDelta → Finset Nat
  | [] => ∅
  | .add _ _ :: L => removedTags L
  | .remove ts :: L => ts.toFinset ∪ removedTags L

theorem foldl_orset_adds (L : List ORSetDelta) (s : ORSetState) :
    (L.foldl applyORSet s).adds = s.adds ∪ addPairs L := by
  induction L generalizing s with
  | nil => simp [addPairs]
  | cons d L ih =>
    cases d with
    | add e t =>
      rw [List.foldl_cons, ih]
      simp [applyORSet, orsetMerge, deltaState, addPairs, Finset.union_assoc,
        Finset.union_comm, Finset.insert_eq, Finset.union_left_comm]
    | remove ts =>
      rw [List.foldl_cons, ih]
      simp [applyORSet, orsetMerge, deltaState, addPairs]

theorem foldl_orset_removed (L : List ORSetDelta) (s : ORSetState) :
    (L.foldl applyORSet s).removed = s.removed ∪ removedTags L := by
  induction L generalizing s with
  | nil => simp [removedTags]
  | cons d L ih =>
    cases d with
    | add e t =>
      rw [List.foldl_cons, ih]
      simp [applyORSet, orsetMerge, deltaState, removedTags]
    | remove ts =>
      rw [List.foldl_cons, ih]
      simp [applyORSet, orsetMerge, deltaState, removedTags, Finset.union_assoc]

theorem matORSet_adds (L : List ORSetDelta) : (matORSet L).adds = addPairs L := by
  rw [matORSet, foldl_orset_adds]
  simp [emptyORSet]

theorem matORSet_removed (L : List ORSetDelta) : (matORSet L).removed = removedTags L := by
  rw [matORSet, foldl_orset_removed]
  simp [emptyORSet]

theorem mem_addPairs (L : List ORSetDelta) (e : String) (t : Nat) :
    (e, t) ∈ addPairs L ↔ ORSetDelta.add e t ∈ L := by
  induction L with
  | nil => simp [addPairs]
  | cons d L ih =>
    cases d with
    | add e' t' => simp [addPairs, ih, Prod.ext_iff, List.mem_cons]
    | remove ts => simp [addPairs, ih, List.mem_cons]

/-- Modelled from the spec: an element is present in the materialized OR-Set
iff it has at least one add-tag not covered by an observed remove referencing
that exact tag (decidable membership check over the state). -/
def orsetContains (e : String) (s : ORSetState) : Bool :=
  decide (s.adds.filter (fun p => p.1 = e ∧ p.2 ∉ s.removed)).Nonempty

/-- Claim C2: concurrent LWW writes are resolved by the `(timestamp, issuer_did)`
tiebreak — the higher timestamp wins, and on equal timestamps the higher issuer
DID (byte-comparable string) wins; merge is symmetric in its arguments, so the
two replicas pick the same winner regardless of which side merges which. -/
theorem lww_tiebreak (w1 w2 : LWWWrite) :
    (w2.timestamp < w1.timestamp → lwwMerge w1 w2 = w1 ∧ lwwMerge w2 w1 = w1) ∧
    (w1.timestamp = w2.timestamp → w2.issuer < w1.issuer →
      lwwMerge w1 w2 = w1 ∧ lwwMerge w2 w1 = w1) ∧
    lwwMerge w1 w2 = lwwMerge w2 w1 := by
  refine ⟨fun ht => ?_, fun ht hi => ?_, lwwMerge_comm w1 w2⟩
  · have h12 : lwwPrecedes w1 w2 = false := by
      rw [Bool.eq_false_iff, Ne, lwwPrecedes_eq_true_iff]
      rintro (h | ⟨h, -⟩) <;> omega
    have h21 : lwwPrecedes w2 w1 = true := by
      rw [lwwPrecedes_eq_true_iff]
      exact Or.inl ht
    simp [lwwMerge, h12, h21]
  · have h12 : lwwPrecedes w1 w2 = false := by
      rw [Bool.eq_false_iff, Ne, lwwPrecedes_eq_true_iff]
      rintro (h | ⟨-, h | ⟨h, -⟩⟩)
      · omega
      · exact absurd h (asymm hi)
      · exact absurd h.symm (ne_of_lt hi)
    have h21 : lwwPrecedes w2 w1 = true := by
      rw [lwwPrecedes_eq_true_iff]
      exact Or.inr ⟨ht.symm, Or.inl hi⟩
    simp [lwwMerge, h12, h21]

/-- Witness for C2: the spec's example — two writes at timestamp 100 from
`did:A` (`"red"`) and `did:B` (`"blue"`) resolve to the `did:B` write on both
replicas; and a strictly newer write wins. -/
theorem lww_tiebreak_witness :
    lwwMerge ⟨100, "did:A", "red"⟩ ⟨100, "did:B", "blue"⟩ = ⟨100, "did:B", "blue"⟩ ∧
    lwwMerge ⟨100, "did:B", "blue"⟩ ⟨100, "did:A", "red"⟩ = ⟨100, "did:B", "blue"⟩ ∧
    lwwMerge ⟨200, "did:A", "v2"⟩ ⟨100, "did:B", "v1"⟩ = ⟨200, "did:A", "v2"⟩ :=
  ⟨((lww_tiebreak ⟨100, "did:B", "blue"⟩ ⟨100, "did:A", "red"⟩).2.1 rfl
      (by rw [String.lt_iff_toList_lt]; decide)).2,
   ((lww_tiebreak ⟨100, "did:B", "blue"⟩ ⟨100, "did:A", "red"⟩).2.1 rfl
      (by rw [String.lt_iff_toList_lt]; decide)).1,
   ((lww_tiebreak ⟨200, "did:A", "v2"⟩ ⟨100, "did:B", "v1"⟩).1 (by decide)).1⟩

/-- Claim C1: every CRDT merge of the type library — LWW register, OR-Set and
RGA-style sequence — is commutative, associative and idempotent, and a
replica's materialized state is a function of the set of applied Deltas only:
any two arrival lists (any order, any duplication) with the same underlying
Delta set materialize identical state, including the visible sequence read off
the sequence state. -/
theorem crdt_merge_convergence :
    (∀ a b, lwwMergeOpt a b = lwwMergeOpt b a) ∧
    (∀ a b c, lwwMergeOpt (lwwMergeOpt a b) c = lwwMergeOpt a (lwwMergeOpt b c)) ∧
    (∀ a, lwwMergeOpt a a = a) ∧
    (∀ a b, orsetMerge a b = orsetMerge b a) ∧
    (∀ a b c, orsetMerge (orsetMerge a b) c = orsetMerge a (orsetMerge b c)) ∧
    (∀ a, orsetMerge a a = a) ∧
    (∀ a b, seqMerge a b = seqMerge b a) ∧
    (∀ a b c, seqMerge (seqMerge a b) c = seqMerge a (seqMerge b c)) ∧
    (∀ a, seqMerge a a = a) ∧
    (∀ L1 L2 : List LWWWrite, L1.toFinset = L2.toFinset → matLWW L1 = matLWW L2) ∧
    (∀ L1 L2 : List ORSetDelta, L1.toFinset = L2.toFinset → matORSet L1 = matORSet L2) ∧
    (∀ L1 L2 : List SeqDelta, L1.toFinset = L2.toFinset → matSeq L1 = matSeq L2) ∧
    (∀ L1 L2 : List SeqDelta, L1.toFinset = L2.toFinset →
      seqLinearize (matSeq L1) = seqLinearize (matSeq L2)) :=
  ⟨lwwMergeOpt_comm, lwwMergeOpt_assoc, lwwMergeOpt_idem,
   orsetMerge_comm, orsetMerge_assoc, orsetMerge_idem,
   seqMerge_comm, seqMerge_assoc, seqMerge_idem,
   fun L1 L2 h => by rw [matLWW_eq_fold, matLWW_eq_fold, h],
   fun L1 L2 h => by rw [matORSet_eq_fold, matORSet_eq_fold, h],
   fun L1 L2 h => by rw [matSeq_eq_fold, matSeq_eq_fold, h],
   fun L1 L2 h => by rw [matSeq_eq_fold, matSeq_eq_fold, h]⟩

/-- Witness for C1: two replicas receiving the same Deltas in different orders,
with duplicated arrivals, materialize identical state for all three CRDT
types, and the visible sequences agree. -/
theorem crdt_merge_convergence_witness :
    matLWW [⟨100, "did:A", "red"⟩, ⟨100, "did:B", "blue"⟩] =
      matLWW [⟨100, "did:B", "blue"⟩, ⟨100, "did:A", "red"⟩, ⟨100, "did:B", "blue"⟩] ∧
    matORSet [.add "x" 1, .remove [1]] = matORSet [.remove [1], .add "x" 1, .add "x" 1] ∧
    matSeq [.insert 1 none "a", .insert 2 (some 1) "b", .delete 1] =
      matSeq [.delete 1, .insert 2 (some 1) "b", .insert 1 none "a", .insert 1 none "a"] ∧
    seqLinearize (matSeq [.insert 1 none "a", .insert 2 (some 1) "b", .delete 1]) =
      seqLinearize
        (matSeq [.delete 1, .insert 2 (some 1) "b", .insert 1 none "a", .insert 1 none "a"]) := by
  obtain ⟨-, -, -, -, -, -, -, -, -, h10, h11, h12, h13⟩ := crdt_merge_convergence
  exact ⟨h10 _ _ (by decide), h11 _ _ (by decide), h12 _ _ (by decide), h13 _ _ (by decide)⟩

/-- Claim C3: an element is present in the materialized OR-Set iff at least one
of its add-tags is not referenced by any observed remove targeting that exact
tag — for every element and every arrival list of add/remove Deltas. -/
theorem orset_presence (L : List ORSetDelta) (e : String) :
    orsetContains e (matORSet L) = true ↔
      ∃ t : Nat, ORSetDelta.add e t ∈ L ∧ t ∉ removedTags L := by
  rw [orsetContains, decide_eq_true_iff, Finset.filter_nonempty_iff]
  constructor
  · rintro ⟨⟨e', t⟩, hmem, he, ht⟩
    dsimp only at he ht
    subst he
    rw [matORSet_adds, mem_addPairs] at hmem
    rw [matORSet_removed] at ht
    exact ⟨t, hmem, ht⟩
  · rintro ⟨t, hL, ht⟩
    refine ⟨(e, t), ?_, rfl, ?_⟩
    · rw [matORSet_adds, mem_addPairs]
      exact hL
    · rw [matORSet_removed]
      exact ht

/-- Witness for C3: the spec's scenario — adds `{x, y}` (tags 1, 2), a
concurrent remove of tag 1 and add of `z` (tag 3); synced in either direction,
both replicas materialize `{y, z}` and identical state. -/
theorem orset_presence_witness :
    orsetContains "y" (matORSet [.add "x" 1, .add "y" 2, .remove [1], .add "z" 3]) = true ∧
    orsetContains "z" (matORSet [.add "x" 1, .add "y" 2, .remove [1], .add "z" 3]) = true ∧
    orsetContains "x" (matORSet [.add "x" 1, .add "y" 2, .remove [1], .add "z" 3]) = false ∧
    (matORSet [.add "x" 1, .add "y" 2, .remove [1], .add "z" 3]).adds =
      (matORSet [.remove [1], .add "z" 3, .add "x" 1, .add "y" 2]).adds ∧
    (matORSet [.add "x" 1, .add "y" 2, .remove [1], .add "z" 3]).removed =
      (matORSet [.remove [1], .add "z" 3, .add "x" 1, .add "y" 2]).removed :=
  ⟨(orset_presence [.add "x" 1, .add "y" 2, .remove [1], .add "z" 3] "y").mpr
      ⟨2, by decide, by decide⟩,
   (orset_presence [.add "x" 1, .add "y" 2, .remove [1], .add "z" 3] "z").mpr
      ⟨3, by decide, by decide⟩,
   by decide, by decide, by decide⟩

/-- Claim C10: each log method emits console output iff the logger is enabled
and the level's priority is at least `minLevel`'s priority; in particular
`error` emits nothing when the logger is disabled, despite its doc comment
saying it always logs. -/
theorem logger_emission (cfg : LoggerConfig) (level : LogLevel) :
    methodEmits cfg level =
      (cfg.enabled && decide (levelPriority cfg.minLevel ≤ levelPriority level)) ∧
    errorEmits { cfg with enabled := false } = false := by
  constructor
  · cases level <;> cases h : cfg.enabled <;>
      simp [methodEmits, debugEmits, infoEmits, warnEmits, errorEmits, shouldLog, h]
  · simp [errorEmits, shouldLog]

/-! # Delta Log / Causal DAG (spec section 4.2)

Modelled from the spec: the Delta Log stores content-addressed Deltas keyed by
their id (the content hash) and materializes them into object state only in a
causally safe order — a Delta is folded in only after every causal parent has
been folded in. `drain` repeatedly applies any stored, not-yet-applied Delta
whose parents are all applied; appending dedupes by content hash (spec
section 4.2, idempotence bullet). -/

/-- Modelled from the spec: a Delta of the Delta Log — content-derived `id`,
`causal_parents` ids, and its CRDT `op` (spec section 3). -/
structure LogDelta where
  id : Nat
  parents : List Nat
  op : ORSetDelta
deriving DecidableEq, Repr

/-- Modelled from the spec: Delta Log state — the stored Deltas and the ids
already folded into materialized state, in application order. -/
structure LogState where
  stored : List LogDelta
  applied : List Nat
deriving DecidableEq, Repr

def emptyLog : LogState := ⟨[], []⟩

/-- A stored Delta is ready to materialize when it is not yet applied and all
its causal parents are applied (spec section 3: no dangling causal reference
may be applied). -/
def isReady (s : LogState) (d : LogDelta) : Bool :=
  !s.applied.contains d.id && d.parents.all fun p => s.applied.contains p

def findReady (s : LogState) : Option LogDelta :=
  s.stored.find? (isReady s)

/-- Materialization loop: fold ready Deltas one at a time until none is ready
(or fuel runs out; fuel `stored.length` always suffices). -/
def drain : Nat → LogState → LogState
  | 0, s => s
  | fuel + 1, s =>
    match findReady s with
    | none => s
    | some d => drain fuel ⟨s.stored, s.applied ++ [d.id]⟩

/-- Modelled from the spec: `append(delta)` — a no-op success when a Delta with
the same content hash is already stored; otherwise stores the Delta and
materializes everything that has become causally ready. -/
def appendDelta (s : LogState) (d : LogDelta) : LogState :=
  if s.stored.any fun e => e.id == d.id then s
  else drain (d :: s.stored).length ⟨d :: s.stored, s.applied⟩

/-- A replica's Delta Log after appending a sequence of arriving Deltas. -/
def runLog (ds : List LogDelta) : LogState := ds.foldl appendDelta emptyLog

theorem drain_stored (fuel : Nat) (s : LogState) : (drain fuel s).stored = s.stored := by
  induction fuel generalizing s with
  | zero => rfl
  | succ fuel ih =>
    rw [drain]
    cases h : findReady s with
    | none => rfl
    | some d => exact ih _

/-- The causal-safety invariant of the Delta Log: stored ids are unique
(content addressing), every applied id names a stored Delta, and every applied
Delta's parents were applied strictly earlier. -/
def LogInv (s : LogState) : Prop :=
  (s.stored.map LogDelta.id).Nodup ∧
  (∀ a ∈ s.applied, ∃ e ∈ s.stored, e.id = a) ∧
  (∀ d ∈ s.stored, ∀ i : Nat, s.applied.get? i = some d.id →
    ∀ p ∈ d.parents, p ∈ s.applied.take i)

theorem logInv_empty : LogInv emptyLog := by
  refine ⟨by simp [emptyLog], by simp [emptyLog], ?_⟩
  intro d hd i hi
  simp [emptyLog] at hi

theorem logInv_drain_step {s : LogState} {d : LogDelta} (hs : LogInv s)
    (hd : findReady s = some d) : LogInv ⟨s.stored, s.applied ++ [d.id]⟩ := by
  obtain ⟨hnodup, hsrc, hclosed⟩ := hs
  have hdmem : d ∈ s.stored := List.mem_of_find?_eq_some hd
  have hready : isReady s d = true := List.find?_some hd
  rw [isReady, Bool.and_eq_true, Bool.not_eq_true', List.all_eq_true] at hready
  obtain ⟨hdnew, hpar⟩ := hready
  refine ⟨hnodup, ?_, ?_⟩
  · intro a ha
    rcases List.mem_append.mp ha with h | h
    · exact hsrc a h
    · simp only [List.mem_singleton] at h
      exact ⟨d, hdmem, h.symm⟩
  · intro e he i hi p hp
    rcases lt_trichotomy i s.applied.length with hlen | hlen | hlen
    · rw [List.get?_append hlen] at hi
      rw [List.take_append_of_le_length (le_of_lt hlen)]
      exact hclosed e he i hi p hp
    · subst hlen
      rw [List.take_left s.applied [d.id]]
      have : e.id = d.id := by
        have := List.get?_concat_length s.applied d.id
        rw [this] at hi
        exact (Option.some.injEq _ _ ▸ hi).symm ▸ rfl
      have heq : e = d := List.inj_on_of_nodup_map hnodup he hdmem this
      subst heq
      have := hpar p hp
      exact List.mem_of_elem_eq_true (by simpa using this)
    · have : (s.applied ++ [d.id]).length ≤ i := by
        simp only [List.length_append, List.length_singleton]
        omega
      rw [List.get?_eq_none.mpr this] at hi
      exact absurd hi (by simp)

theorem logInv_drain (fuel : Nat) {s : LogState} (hs : LogInv s) : LogInv (drain fuel s) := by
  induction fuel generalizing s with
  | zero => exact hs
  | succ fuel ih =>
    rw [drain]
    cases h : findReady s with
    | none => exact hs
    | some d => exact ih (logInv_drain_step hs h)

theorem logInv_append {s : LogState} (hs : LogInv s) (d : LogDelta) :
    LogInv (appendDelta s d) := by
  rw [appendDelta]
  by_cases h : (s.stored.any fun e => e.id == d.id) = true
  · simpa [h] using hs
  · simp only [h, if_false]
    refine logInv_drain _ ?_
    obtain ⟨hnodup, hsrc, hclosed⟩ := hs
    have hfresh : ∀ e ∈ s.stored, e.id ≠ d.id := by
      intro e he hcontra
      apply h
      rw [List.any_eq_true]
      exact ⟨e, he, by simpa using hcontra⟩
    refine ⟨?_, ?_, ?_⟩
    · simp only [List.map_cons, List.nodup_cons]
      refine ⟨?_, hnodup⟩
      intro hmem
      rcases List.mem_map.mp hmem with ⟨e, he, heq⟩
      exact hfresh e he heq
    · intro a ha
      rcases hsrc a ha with ⟨e, he, heq⟩
      exact ⟨e, List.mem_cons_of_mem d he, heq⟩
    · intro e he i hi p hp
      rcases List.mem_cons.mp he with rfl | he
      · exfalso
        have : e.id ∈ s.applied := by
          have := List.get?_mem hi
          exact this
        rcases hsrc e.id this with ⟨e', he', heq⟩
        exact hfresh e' he' heq
      · exact hclosed e he i hi p hp

theorem logInv_runLog (ds : List LogDelta) : LogInv (runLog ds) := by
  rw [runLog]
  have : ∀ s, LogInv s → LogInv (ds.foldl appendDelta s) := by
    induction ds with
    | nil => exact fun s hs => hs
    | cons d ds ih => exact fun s hs => ih _ (logInv_append hs d)
  exact this emptyLog logInv_empty

/-- Claim C4: a Delta is never folded into materialized state before all its
causal parents: whenever a stored Delta's id appears at position `i` of the
application order, each of its parents appears strictly earlier; hence a Delta
with a dangling causal reference may sit stored, but is never applied. -/
theorem causal_safety (ds : List LogDelta) (d : LogDelta) (hd : d ∈ (runLog ds).stored)
    (p : Nat) (hp : p ∈ d.parents) :
    (∀ i : Nat, (runLog ds).applied.get? i = some d.id →
      p ∈ (runLog ds).applied.take i) ∧
    (p ∉ (runLog ds).applied → d.id ∉ (runLog ds).applied) := by
  obtain ⟨-, -, hclosed⟩ := logInv_runLog ds
  constructor
  · intro i hi
    exact hclosed d hd i hi p hp
  · intro hpn hdmem
    rcases List.mem_iff_get?.mp hdmem with ⟨i, hi⟩
    exact hpn (List.take_subset i _ (hclosed d hd i hi p hp))

/-- Witness for C4: appending `{id 1}` then `{id 2, parent 1}` applies them in
causal order — the parent 1 appears before position 1, where id 2 sits. -/
theorem causal_safety_witness :
    (1 : Nat) ∈ ((runLog [⟨1, [], .add "a" 0⟩, ⟨2, [1], .add "b" 0⟩]).applied.take 1) :=
  (causal_safety [⟨1, [], .add "a" 0⟩, ⟨2, [1], .add "b" 0⟩] ⟨2, [1], .add "b" 0⟩
    (by decide) 1 (by decide)).1 1 (by decide)

/-- Claim C6: re-appending an already-stored Delta (same content hash) is a
no-op success — the whole Delta Log state (hence any materialized state) is
unchanged, and stored content hashes stay duplicate-free, so no duplicate
causal edge is created. -/
theorem append_idempotent (s : LogState) (d : LogDelta) :
    appendDelta (appendDelta s d) d = appendDelta s d ∧
    ((s.stored.map LogDelta.id).Nodup →
      ((appendDelta s d).stored.map LogDelta.id).Nodup) := by
  by_cases h : (s.stored.any fun e => e.id == d.id) = true
  · have hs0 : appendDelta s d = s := by rw [appendDelta, if_pos h]
    constructor
    · rw [hs0, hs0]
    · rw [hs0]
      exact id
  · have hst : (appendDelta s d).stored = d :: s.stored := by
      rw [appendDelta, if_neg h, drain_stored]
    constructor
    · have hdup : ((appendDelta s d).stored.any fun e => e.id == d.id) = true := by
        rw [hst]
        simp
      rw [appendDelta, if_pos hdup]
    · intro hnodup
      rw [hst]
      simp only [List.map_cons, List.nodup_cons]
      refine ⟨?_, hnodup⟩
      intro hmem
      rcases List.mem_map.mp hmem with ⟨e, he, heq⟩
      apply h
      rw [List.any_eq_true]
      exact ⟨e, he, by simpa using heq⟩

/-- Witness for C6: appending the same Delta twice from the empty log yields
the state of a single append, with duplicate-free stored hashes. -/
theorem append_idempotent_witness :
    appendDelta (appendDelta emptyLog ⟨1, [], .add "a" 0⟩) ⟨1, [], .add "a" 0⟩ =
      appendDelta emptyLog ⟨1, [], .add "a" 0⟩ ∧
    ((appendDelta emptyLog ⟨1, [], .add "a" 0⟩).stored.map LogDelta.id).Nodup :=
  ⟨(append_idempotent emptyLog ⟨1, [], .add "a" 0⟩).1,
   (append_idempotent emptyLog ⟨1, [], .add "a" 0⟩).2 (by decide)⟩

/-! # Delta Log append error taxonomy (spec sections 4.2 and 7)

Modelled from the spec: `append(delta)` verifies the signature against the
issuer DID, then requires every causal parent to be stored or pending; an
arrival with a missing parent may be buffered, and fails `DanglingParent`
within the buffering window and `CausalGap` once it has waited past the
configurable horizon. Signature verification is cryptographic and external, so
it is passed in as a Boolean check; `waited` is how long the arrival has been
buffered. -/

/-- Modelled from the spec: a signed Delta as in spec section 3
(`{id, object_id, op, causal_parents, issuer_did, signature, timestamp}`;
the type-specific `op` payload is irrelevant to append's error taxonomy). -/
structure SignedDelta where
  id : Nat
  objectId : Nat
  parents : List Nat
  issuer : String
  sig : Nat
  timestamp : Nat
deriving DecidableEq, Repr

/-- Modelled from the spec: the append-relevant error taxonomy of spec
section 7. -/
inductive AppendErr where
  | invalidSignature
  | danglingParent
  | causalGap
deriving DecidableEq, Repr

/-- Modelled from the spec: Delta Log bookkeeping — stored Delta ids, buffered
out-of-order (pending) ids, and ids stored but pending materialization. -/
structure DLState where
  storedIds : List Nat
  pendingIds : List Nat
  pendingMat : List Nat
deriving DecidableEq, Repr

/-- Modelled from the spec: `append(delta)` of spec section 4.2 — fails
`InvalidSignature` if the signature check fails; fails `DanglingParent` if a
required causal parent is neither stored nor pending (escalating to
`CausalGap` once the arrival has waited past the horizon); otherwise stores
the Delta and marks it pending materialization. -/
def dlAppend (verify : SignedDelta → Bool) (horizon : Nat) (s : DLState)
    (d : SignedDelta) (waited : Nat) : Except AppendErr DLState :=
  if !verify d then .error .invalidSignature
  else if d.parents.all fun p => s.storedIds.contains p || s.pendingIds.contains p then
    .ok { s with storedIds := d.id :: s.storedIds, pendingMat := d.id :: s.pendingMat }
  else if waited ≤ horizon then .error .danglingParent
  else .error .causalGap

/-- Claim C7: `append` fails `InvalidSignature` exactly when the signature
check fails; with a valid signature and a required parent neither stored nor
pending it fails `DanglingParent` within the buffering window and `CausalGap`
past the horizon; otherwise it stores the Delta and marks it pending
materialization. -/
theorem append_error_taxonomy (verify : SignedDelta → Bool) (horizon : Nat)
    (s : DLState) (d : SignedDelta) (waited : Nat) :
    (dlAppend verify horizon s d waited = .error .invalidSignature ↔ verify d = false) ∧
    (verify d = true →
      (d.parents.all fun p => s.storedIds.contains p || s.pendingIds.contains p) = false →
      (waited ≤ horizon → dlAppend verify horizon s d waited = .error .danglingParent) ∧
      (horizon < waited → dlAppend verify horizon s d waited = .error .causalGap)) ∧
    (verify d = true →
      (d.parents.all fun p => s.storedIds.contains p || s.pendingIds.contains p) = true →
      ∃ s', dlAppend verify horizon s d waited = .ok s' ∧
        s'.storedIds = d.id :: s.storedIds ∧ s'.pendingMat = d.id :: s.pendingMat ∧
        s'.pendingIds = s.pendingIds) := by
  refine ⟨?_, ?_, ?_⟩
  · constructor
    · intro hres
      cases hv : verify d with
      | false => rfl
      | true =>
        rw [dlAppend, hv] at hres
        simp only [Bool.not_true, Bool.false_eq_true, if_false] at hres
        split at hres
        · exact absurd hres (by simp)
        · split at hres
          · exact absurd hres (by simp)
          · exact absurd hres (by simp)
    · intro hv
      rw [dlAppend, hv]
      rfl
  · intro hv hmiss
    constructor
    · intro hw
      rw [dlAppend, hv, hmiss]
      simp [hw]
    · intro hw
      rw [dlAppend, hv, hmiss]
      simp
      omega
  · intro hv hall
    refine ⟨{ s with storedIds := d.id :: s.storedIds, pendingMat := d.id :: s.pendingMat },
      ?_, rfl, rfl, rfl⟩
    rw [dlAppend, hv, hall]
    rfl

/-- Witness for C7: concrete appends hitting all four outcomes — bad
signature, missing parent within the window, missing parent past the horizon,
and a clean store-and-mark-pending. -/
theorem append_error_taxonomy_witness :
    dlAppend (fun d => d.sig == 1) 2 ⟨[], [], []⟩ ⟨5, 0, [], "did:A", 0, 100⟩ 0 =
      .error .invalidSignature ∧
    dlAppend (fun d => d.sig == 1) 2 ⟨[], [], []⟩ ⟨5, 0, [9], "did:A", 1, 100⟩ 1 =
      .error .danglingParent ∧
    dlAppend (fun d => d.sig == 1) 2 ⟨[], [], []⟩ ⟨5, 0, [9], "did:A", 1, 100⟩ 3 =
      .error .causalGap ∧
    dlAppend (fun d => d.sig == 1) 2 ⟨[], [], []⟩ ⟨5, 0, [], "did:A", 1, 100⟩ 0 =
      .ok ⟨[5], [], [5]⟩ := by
  refine ⟨(append_error_taxonomy (fun d => d.sig == 1) 2 ⟨[], [], []⟩
      ⟨5, 0, [], "did:A", 0, 100⟩ 0).1.mpr (by decide),
   ((append_error_taxonomy (fun d => d.sig == 1) 2 ⟨[], [], []⟩
      ⟨5, 0, [9], "did:A", 1, 100⟩ 1).2.1 (by decide) (by decide)).1 (by decide),
   ((append_error_taxonomy (fun d => d.sig == 1) 2 ⟨[], [], []⟩
      ⟨5, 0, [9], "did:A", 1, 100⟩ 3).2.1 (by decide) (by decide)).2 (by decide), ?_⟩
  obtain ⟨s', hs, h1, h2, h3⟩ := (append_error_taxonomy (fun d => d.sig == 1) 2 ⟨[], [], []⟩
      ⟨5, 0, [], "did:A", 1, 100⟩ 0).2.2 (by decide) (by decide)
  have hval : s' = ⟨[5], [], [5]⟩ := by
    cases s'
    simp_all
  rw [hs, hval]

/-! # Access Gate (spec section 4.5)

Modelled from the spec: a pure decision function over an externally supplied
capability chain. A chain is valid iff every link's audience equals the next
link's issuer, the first issuer is authoritative for the resource (checked by
an externally supplied root predicate), no link is expired, and the terminal
link covers the requested action/resource for the acting DID. Invalid chain
means `Unauthorized`, and the Delta is neither admitted into materialized
state nor offered during sync (fail closed). -/

/-- Modelled from the spec: one capability delegation link (spec section 3,
Capability Grant). -/
structure CapLink where
  issuer : String
  audience : String
  action : String
  resource : Nat
  expiry : Nat
deriving DecidableEq, Repr

/-- Every link's audience equals the next link's issuer. -/
def chainLinked : List CapLink → Bool
  | [] => true
  | [_] => true
  | a :: b :: rest => a.audience == b.issuer && chainLinked (b :: rest)

/-- Modelled from the spec: capability-chain validation (spec section 4.5). -/
def chainValid (isRoot : String → Nat → Bool) (now : Nat) (chain : List CapLink)
    (actor : String) (act : String) (resource : Nat) : Bool :=
  match chain with
  | [] => false
  | first :: _ =>
    isRoot first.issuer resource && chainLinked chain &&
      chain.all (fun l => now < l.expiry) &&
      (match chain.getLast? with
       | some last => last.audience == actor && last.action == act &&
           last.resource == resource
       | none => false)

/-- The Access Gate's decision. -/
inductive GateDecision where
  | allow
  | unauthorized
deriving DecidableEq, Repr

/-- Modelled from the spec: the Access Gate decision function over
`(actor_did, action, resource, capability_chain)`. -/
def accessGate (isRoot : String → Nat → Bool) (now : Nat) (chain : List CapLink)
    (actor : String) (act : String) (resource : Nat) : GateDecision :=
  if chainValid isRoot now chain actor act resource then .allow else .unauthorized

/-- Modelled from the spec: a Delta together with the acting DID, requested
action/resource and the capability chain it presents. -/
structure GatedDelta where
  op : ORSetDelta
  actor : String
  act : String
  resource : Nat
  chain : List CapLink
deriving DecidableEq, Repr

def gateAllows (isRoot : String → Nat → Bool) (now : Nat) (g : GatedDelta) : Bool :=
  chainValid isRoot now g.chain g.actor g.act g.resource

/-- Modelled from the spec: the Deltas admitted past the Access Gate — only
these are materialized (spec section 2 data flow). Admission is per Delta. -/
def admittedDeltas (isRoot : String → Nat → Bool) (now : Nat)
    (inputs : List GatedDelta) : List GatedDelta :=
  inputs.filter (gateAllows isRoot now)

/-- Modelled from the spec: materialized state folds the ops of the admitted
Deltas only. -/
def materializeGated (isRoot : String → Nat → Bool) (now : Nat)
    (inputs : List GatedDelta) : ORSetState :=
  matORSet ((admittedDeltas isRoot now inputs).map GatedDelta.op)

/-- Modelled from the spec: the Deltas offered to a peer during sync — the
Access Gate is consulted per Delta before it is offered (spec section 4.4,
scoping bullet). -/
def syncOffer (isRoot : String → Nat → Bool) (now : Nat)
    (inputs : List GatedDelta) : List GatedDelta :=
  inputs.filter (gateAllows isRoot now)

/-- Claim C5: a Delta whose capability chain is invalid for its
`(actor, action, resource)` gets `Unauthorized` from the Access Gate, is never
admitted, is never offered during sync, the materialized state is exactly as
if it had never arrived, and everything that is admitted carries a valid
chain (fail closed, no partial admission). -/
theorem access_fail_closed (isRoot : String → Nat → Bool) (now : Nat)
    (inputs : List GatedDelta) (g : GatedDelta)
    (hinvalid : chainValid isRoot now g.chain g.actor g.act g.resource = false) :
    accessGate isRoot now g.chain g.actor g.act g.resource = .unauthorized ∧
    g ∉ admittedDeltas isRoot now inputs ∧
    g ∉ syncOffer isRoot now inputs ∧
    materializeGated isRoot now inputs =
      materializeGated isRoot now (inputs.filter fun x => x != g) ∧
    ∀ g' ∈ admittedDeltas isRoot now inputs,
      chainValid isRoot now g'.chain g'.actor g'.act g'.resource = true := by
  have hnotallow : gateAllows isRoot now g = false := by
    rw [gateAllows, hinvalid]
  have hnot : g ∉ admittedDeltas isRoot now inputs := by
    intro hmem
    have := (List.mem_filter.mp hmem).2
    rw [hnotallow] at this
    exact absurd this (by simp)
  refine ⟨?_, hnot, ?_, ?_, ?_⟩
  · rw [accessGate, if_neg]
    rw [hinvalid]
    simp
  · intro hmem
    have := (List.mem_filter.mp hmem).2
    rw [hnotallow] at this
    exact absurd this (by simp)
  · rw [materializeGated, materializeGated, admittedDeltas, admittedDeltas,
      List.filter_filter]
    have hfe : inputs.filter (gateAllows isRoot now) =
        inputs.filter fun a => gateAllows isRoot now a && (a != g) := by
      apply List.filter_congr
      intro x hx
      by_cases hxg : x = g
      · subst hxg
        rw [hnotallow]
        simp
      · have : (x != g) = true := by simpa using hxg
        rw [this, Bool.and_true]
    rw [← hfe]
  · intro g' hmem
    have := (List.mem_filter.mp hmem).2
    rw [gateAllows] at this
    exact this

/-- Witness for C5: an arrival presenting an expired chain is refused, never
admitted or offered, and the materialized state equals the one computed with
that arrival erased from the input, while an unrelated authorized add is
admitted independently. -/
theorem access_fail_closed_witness :
    accessGate (fun s r => s == "root" && r == 7) 50
      [⟨"root", "did:alice", "write", 7, 10⟩] "did:alice" "write" 7 =
      .unauthorized ∧
    (⟨.add "x" 1, "did:alice", "write", 7, [⟨"root", "did:alice", "write", 7, 10⟩]⟩ :
        GatedDelta) ∉ admittedDeltas (fun s r => s == "root" && r == 7) 50
      [⟨.add "x" 1, "did:alice", "write", 7, [⟨"root", "did:alice", "write", 7, 10⟩]⟩,
       ⟨.add "y" 2, "did:bob", "write", 7, [⟨"root", "did:bob", "write", 7, 100⟩]⟩] ∧
    (⟨.add "x" 1, "did:alice", "write", 7, [⟨"root", "did:alice", "write", 7, 10⟩]⟩ :
        GatedDelta) ∉ syncOffer (fun s r => s == "root" && r == 7) 50
      [⟨.add "x" 1, "did:alice", "write", 7, [⟨"root", "did:alice", "write", 7, 10⟩]⟩,
       ⟨.add "y" 2, "did:bob", "write", 7, [⟨"root", "did:bob", "write", 7, 100⟩]⟩] ∧
    materializeGated (fun s r => s == "root" && r == 7) 50
      [⟨.add "x" 1, "did:alice", "write", 7, [⟨"root", "did:alice", "write", 7, 10⟩]⟩,
       ⟨.add "y" 2, "did:bob", "write", 7, [⟨"root", "did:bob", "write", 7, 100⟩]⟩] =
    materializeGated (fun s r => s == "root" && r == 7) 50
      ([⟨.add "x" 1, "did:alice", "write", 7, [⟨"root", "did:alice", "write", 7, 10⟩]⟩,
        ⟨.add "y" 2, "did:bob", "write", 7, [⟨"root", "did:bob", "write", 7, 100⟩]⟩].filter
        fun x => x !=
          ⟨.add "x" 1, "did:alice", "write", 7, [⟨"root", "did:alice", "write", 7, 10⟩]⟩) := by
  obtain ⟨h1, h2, h3, h4, -⟩ := access_fail_closed (fun s r => s == "root" && r == 7) 50
    [⟨.add "x" 1, "did:alice", "write", 7, [⟨"root", "did:alice", "write", 7, 10⟩]⟩,
     ⟨.add "y" 2, "did:bob", "write", 7, [⟨"root", "did:bob", "write", 7, 100⟩]⟩]
    ⟨.add "x" 1, "did:alice", "write", 7, [⟨"root", "did:alice", "write", 7, 10⟩]⟩
    (by decide)
  exact ⟨h1, h2, h3, h4⟩

/-! # Snapshot / GC Manager (spec section 4.6)

Modelled from the spec: GC performs dependency resolution over the causal DAG
before deletion — it keeps exactly the Deltas reachable (via `causal_parents`)
from the retained frontiers and Snapshots, so no causal ancestor of a retained
frontier or Snapshot is ever removed, and every retained Snapshot's state
remains reproducible from the remaining Deltas. -/

/-- Parent ids contributed by Deltas whose id lies in `cur`. -/
def parentsOf : List LogDelta → Finset Nat → Finset Nat
  | [], _ => ∅
  | d :: rest, cur =>
    (if d.id ∈ cur then d.parents.toFinset else ∅) ∪ parentsOf rest cur

/-- Every parent id referenced anywhere in the store. -/
def allParents : List LogDelta → Finset Nat
  | [] => ∅
  | d :: rest => d.parents.toFinset ∪ allParents rest

/-- One step of the ancestor-closure walk. -/
def ancStep (all : List LogDelta) (cur : Finset Nat) : Finset Nat :=
  cur ∪ parentsOf all cur

/-- Iterate the closure walk until a fixpoint (or fuel runs out). -/
def ancIter (all : List LogDelta) : Nat → Finset Nat → Finset Nat
  | 0, cur => cur
  | n + 1, cur => if ancStep all cur = cur then cur else ancIter all n (ancStep all cur)

/-- Modelled from the spec: the causal-ancestor closure of a set of retained
ids — the mandatory dependency resolution of spec section 4.6. -/
def ancestors (all : List LogDelta) (roots : Finset Nat) : Finset Nat :=
  ancIter all ((allParents all).card + 1) roots

/-- Modelled from the spec: GC keeps exactly the Deltas reachable from the
retained frontiers/Snapshots and erases the rest. -/
def gcKeep (all : List LogDelta) (roots : Finset Nat) : List LogDelta :=
  all.filter fun d => d.id ∈ ancestors all roots

/-- `Reaches all a c`: id `c` is `a` itself or a causal ancestor of id `a`,
following `causal_parents` edges through Deltas of the store. -/
inductive Reaches (all : List LogDelta) : Nat → Nat → Prop where
  | refl (a : Nat) : Reaches all a a
  | step {a b c : Nat} (d : LogDelta) : Reaches all a b → d ∈ all → d.id = b →
      c ∈ d.parents → Reaches all a c

/-- Modelled from the spec: a Snapshot's materialized state — the fold of the
Deltas in the causal history of its frontier (spec section 3, Snapshot). -/
def snapshotState (store : List LogDelta) (frontier : Finset Nat) : ORSetState :=
  matORSet ((store.filter fun d => d.id ∈ ancestors store frontier).map LogDelta.op)

theorem mem_parentsOf {all : List LogDelta} {cur : Finset Nat} {x : Nat} :
    x ∈ parentsOf all cur ↔ ∃ d ∈ all, d.id ∈ cur ∧ x ∈ d.parents := by
  induction all with
  | nil => simp [parentsOf]
  | cons d rest ih =>
    by_cases h : d.id ∈ cur
    · simp [parentsOf, h, ih]
    · simp [parentsOf, h, ih]

theorem mem_allParents {all : List LogDelta} {x : Nat} :
    x ∈ allParents all ↔ ∃ d ∈ all, x ∈ d.parents := by
  induction all with
  | nil => simp [allParents]
  | cons d rest ih =>
    simp [allParents, ih]

theorem parentsOf_subset_allParents (all : List LogDelta) (cur : Finset Nat) :
    parentsOf all cur ⊆ allParents all := by
  intro x hx
  rcases mem_parentsOf.mp hx with ⟨d, hd, -, hx⟩
  exact mem_allParents.mpr ⟨d, hd, hx⟩

theorem subset_ancIter (all : List LogDelta) (fuel : Nat) (cur : Finset Nat) :
    cur ⊆ ancIter all fuel cur := by
  induction fuel generalizing cur with
  | zero => exact Finset.Subset.refl cur
  | succ n ih =>
    rw [ancIter]
    by_cases h : ancStep all cur = cur
    · rw [if_pos h]
    · rw [if_neg h]
      exact (Finset.subset_union_left).trans (ih (ancStep all cur))

theorem ancIter_fixpoint (all : List LogDelta) (fuel : Nat) (cur : Finset Nat)
    (hfuel : ((allParents all) \ cur).card < fuel) :
    ancStep all (ancIter all fuel cur) = ancIter all fuel cur := by
  induction fuel generalizing cur with
  | zero => omega
  | succ n ih =>
    rw [ancIter]
    by_cases h : ancStep all cur = cur
    · rw [if_pos h]
      exact h
    · rw [if_neg h]
      apply ih
      have hsub : cur ⊆ ancStep all cur := Finset.subset_union_left
      have hssub : (allParents all) \ ancStep all cur ⊂ (allParents all) \ cur := by
        rw [Finset.ssubset_iff_of_subset (Finset.sdiff_subset_sdiff (Finset.Subset.refl _) hsub)]
        have hne : ∃ x, x ∈ ancStep all cur ∧ x ∉ cur := by
          by_contra hno
          push_neg at hno
          exact h (Finset.Subset.antisymm (fun x hx => hno x hx) hsub)
        rcases hne with ⟨x, hx1, hx2⟩
        have hxpar : x ∈ parentsOf all cur := by
          rcases Finset.mem_union.mp hx1 with hx | hx
          · exact absurd hx hx2
          · exact hx
        refine ⟨x, Finset.mem_sdiff.mpr ⟨parentsOf_subset_allParents all cur hxpar, hx2⟩, ?_⟩
        intro hcontra
        exact (Finset.mem_sdiff.mp hcontra).2 hx1
      have := Finset.card_lt_card hssub
      omega

/-- Generic invariant lemma for the closure walk: a property true on the seed
set and closed under following parent edges holds on the whole closure. -/
theorem ancIter_sound (all : List LogDelta) (P : Nat → Prop)
    (hclosed : ∀ d ∈ all, P d.id → ∀ p ∈ d.parents, P p) (fuel : Nat)
    (cur : Finset Nat) (hcur : ∀ x ∈ cur, P x) :
    ∀ x ∈ ancIter all fuel cur, P x := by
  induction fuel generalizing cur with
  | zero => exact hcur
  | succ n ih =>
    rw [ancIter]
    by_cases h : ancStep all cur = cur
    · rw [if_pos h]
      exact hcur
    · rw [if_neg h]
      apply ih
      intro x hx
      rcases Finset.mem_union.mp hx with hx | hx
      · exact hcur x hx
      · rcases mem_parentsOf.mp hx with ⟨d, hd, hdc, hxp⟩
        exact hclosed d hd (hcur d.id hdc) x hxp

theorem ancestors_fix (all : List LogDelta) (roots : Finset Nat) :
    ancStep all (ancestors all roots) = ancestors all roots := by
  apply ancIter_fixpoint
  have := Finset.card_le_card
    (Finset.sdiff_subset : allParents all \ roots ⊆ allParents all)
  omega

theorem subset_ancestors (all : List LogDelta) (roots : Finset Nat) :
    roots ⊆ ancestors all roots :=
  subset_ancIter all _ roots

/-- Completeness: anything reachable from a root is in the computed closure. -/
theorem reaches_mem_ancestors {all : List LogDelta} {roots : Finset Nat} {r x : Nat}
    (hr : r ∈ roots) (hreach : Reaches all r x) : x ∈ ancestors all roots := by
  induction hreach with
  | refl => exact subset_ancestors all roots hr
  | step d hb hd hid hp ih =>
    rw [← ancestors_fix all roots]
    apply Finset.mem_union_right
    exact mem_parentsOf.mpr ⟨d, hd, by rw [hid]; exact ih, hp⟩

/-- Soundness: everything in the computed closure is reachable from a root. -/
theorem mem_ancestors_reaches {all : List LogDelta} {roots : Finset Nat} {x : Nat}
    (hx : x ∈ ancestors all roots) : ∃ r ∈ roots, Reaches all r x := by
  refine ancIter_sound all (fun y => ∃ r ∈ roots, Reaches all r y) ?_ _ roots ?_ x hx
  · rintro d hd ⟨r, hr, hreach⟩ p hp
    exact ⟨r, hr, Reaches.step d hreach hd rfl hp⟩
  · intro y hy
    exact ⟨y, hy, Reaches.refl y⟩

theorem reaches_mono {all : List LogDelta} {sub : List LogDelta} {a x : Nat}
    (hsub : ∀ d ∈ sub, d ∈ all) (h : Reaches sub a x) : Reaches all a x := by
  induction h with
  | refl => exact Reaches.refl _
  | step d hb hd hid hp ih => exact Reaches.step d ih (hsub d hd) hid hp

theorem ancestors_mono_roots (all : List LogDelta) {roots roots' : Finset Nat}
    (h : roots ⊆ roots') : ancestors all roots ⊆ ancestors all roots' := by
  intro x hx
  rcases mem_ancestors_reaches hx with ⟨r, hr, hreach⟩
  exact reaches_mem_ancestors (h hr) hreach

/-- The ancestor closure of a retained frontier is unchanged by GC that
retains a superset of the frontier. -/
theorem ancestors_gcKeep (all : List LogDelta) (roots F : Finset Nat) (hF : F ⊆ roots) :
    ancestors (gcKeep all roots) F = ancestors all F := by
  apply Finset.Subset.antisymm
  · intro x hx
    rcases mem_ancestors_reaches hx with ⟨f, hf, hreach⟩
    exact reaches_mem_ancestors hf
      (reaches_mono (fun d hd => (List.mem_filter.mp hd).1) hreach)
  · intro x hx
    rcases mem_ancestors_reaches hx with ⟨f, hf, hreach⟩
    refine reaches_mem_ancestors hf ?_
    clear hx
    induction hreach with
    | refl => exact Reaches.refl _
    | step d hb hd hid hp ih =>
      refine Reaches.step d ih ?_ hid hp
      rw [gcKeep, List.mem_filter]
      refine ⟨hd, ?_⟩
      simp only [decide_eq_true_eq]
      apply ancestors_mono_roots all hF
      rw [hid]
      exact reaches_mem_ancestors hf hb

/-- Claim C8: GC never removes a causal ancestor of a retained frontier or
Snapshot, and after GC every retained Snapshot's materialized state is
reproduced, bit for bit, from the remaining Deltas. -/
theorem gc_safety (all : List LogDelta) (roots F : Finset Nat) (hF : F ⊆ roots) :
    (∀ d ∈ all, (∃ r ∈ roots, Reaches all r d.id) → d ∈ gcKeep all roots) ∧
    snapshotState (gcKeep all roots) F = snapshotState all F := by
  constructor
  · rintro d hd ⟨r, hr, hreach⟩
    rw [gcKeep, List.mem_filter]
    exact ⟨hd, by simpa using reaches_mem_ancestors hr hreach⟩
  · rw [snapshotState, snapshotState, ancestors_gcKeep all roots F hF, gcKeep,
      List.filter_filter]
    have hfe : (all.filter fun a =>
        decide (a.id ∈ ancestors all F) && decide (a.id ∈ ancestors all roots)) =
        all.filter fun d => decide (d.id ∈ ancestors all F) := by
      apply List.filter_congr
      intro d hd
      by_cases hP : d.id ∈ ancestors all F
      · have hQ : d.id ∈ ancestors all roots := ancestors_mono_roots all hF hP
        simp [hP, hQ]
      · simp [hP]
    rw [hfe]

/-- Witness for C8: with store `{1}, {2 ← 1}, {3}` and retained frontier `{2}`,
GC keeps Delta 1 (a causal ancestor of the frontier) and the Snapshot state at
frontier `{2}` is identical before and after GC (Delta 3 is collected). -/
theorem gc_safety_witness :
    (⟨1, [], .add "a" 1⟩ : LogDelta) ∈
      gcKeep [⟨1, [], .add "a" 1⟩, ⟨2, [1], .add "b" 2⟩, ⟨3, [], .add "c" 3⟩] {2} ∧
    snapshotState
        (gcKeep [⟨1, [], .add "a" 1⟩, ⟨2, [1], .add "b" 2⟩, ⟨3, [], .add "c" 3⟩] {2}) {2} =
      snapshotState [⟨1, [], .add "a" 1⟩, ⟨2, [1], .add "b" 2⟩, ⟨3, [], .add "c" 3⟩] {2} :=
  ⟨(gc_safety [⟨1, [], .add "a" 1⟩, ⟨2, [1], .add "b" 2⟩, ⟨3, [], .add "c" 3⟩] {2} {2}
      (Finset.Subset.refl _)).1 ⟨1, [], .add "a" 1⟩ (by decide)
      ⟨2, by decide,
        Reaches.step ⟨2, [1], .add "b" 2⟩ (Reaches.refl 2) (by decide) rfl (by decide)⟩,
   (gc_safety [⟨1, [], .add "a" 1⟩, ⟨2, [1], .add "b" 2⟩, ⟨3, [], .add "c" 3⟩] {2} {2}
      (Finset.Subset.refl _)).2⟩

/-! # Base64url codec (src/unnamed/part_003)

Shallow embedding of `bufferToBase64Url` (lines 216-224) and
`base64UrlToBuffer` (lines 205-214). Byte buffers are byte lists
(`Nat < 256`); the browser builtins `btoa`/`atob` are modelled by the
standard base64 alphabet on 3-byte/4-char groups with `=` padding and
forgiving decode. -/

/-- The standard base64 alphabet used by `btoa`/`atob`. -/
def b64Alphabet : List Char :=
  ['A', 'B', 'C', 'D', 'E', 'F', 'G', 'H', 'I', 'J', 'K', 'L', 'M',
   'N', 'O', 'P', 'Q', 'R', 'S', 'T', 'U', 'V', 'W', 'X', 'Y', 'Z',
   'a', 'b', 'c', 'd', 'e', 'f', 'g', 'h', 'i', 'j', 'k', 'l', 'm',
   'n', 'o', 'p', 'q', 'r', 's', 't', 'u', 'v', 'w', 'x', 'y', 'z',
   '0', '1', '2', '3', '4', '5', '6', '7', '8', '9', '+', '/']

def sextetToChar (n : Nat) : Char := b64Alphabet.getD n 'A'

def charToSextet (c : Char) : Nat := b64Alphabet.indexOf c

/-- `btoa` on a byte sequence: emit 4 alphabet chars per 3 bytes, with `=`
padding for a trailing 1- or 2-byte group. -/
def btoaChunks : List Nat → List Char
  | a :: b :: c :: rest =>
    sextetToChar (a / 4) :: sextetToChar (a % 4 * 16 + b / 16) ::
      sextetToChar (b % 16 * 4 + c / 64) :: sextetToChar (c % 64) :: btoaChunks rest
  | [a, b] =>
    [sextetToChar (a / 4), sextetToChar (a % 4 * 16 + b / 16),
     sextetToChar (b % 16 * 4), '=']
  | [a] => [sextetToChar (a / 4), sextetToChar (a % 4 * 16), '=', '=']
  | [] => []

/-- The sextet stream of the base64 encoding (padding chars excluded). -/
def b64Sextets : List Nat → List Nat
  | a :: b :: c :: rest =>
    a / 4 :: (a % 4 * 16 + b / 16) :: (b % 16 * 4 + c / 64) :: c % 64 :: b64Sextets rest
  | [a, b] => [a / 4, a % 4 * 16 + b / 16, b % 16 * 4]
  | [a] => [a / 4, a % 4 * 16]
  | [] => []

/-- `atob`'s bit reassembly: consume sextets four at a time, emitting 3 bytes,
with 2 or 1 bytes from a trailing group of 3 or 2 sextets. -/
def atobDecode : List Nat → List Nat
  | s0 :: s1 :: s2 :: s3 :: rest =>
    (s0 * 4 + s1 / 16) :: (s1 % 16 * 16 + s2 / 4) :: (s2 % 4 * 64 + s3) :: atobDecode rest
  | [s0, s1, s2] => [s0 * 4 + s1 / 16, s1 % 16 * 16 + s2 / 4]
  | [s0, s1] => [s0 * 4 + s1 / 16]
  | _ => []

/-- `atob`: forgiving base64 decode — ignore `=` padding, map alphabet chars
to sextets, reassemble bytes. -/
def atobModel (s : List Char) : List Nat :=
  atobDecode ((s.filter fun c => c != '=').map charToSextet)

/-- The plus-to-dash and slash-to-underscore replacement step of
`bufferToBase64Url` (part_003 line 223). -/
def toUrlSafe (c : Char) : Char :=
  if c = '+' then '-' else if c = '/' then '_' else c

/-- The dash-to-plus and underscore-to-slash replacement step of
`base64UrlToBuffer` (part_003 line 206). -/
def fromUrlSafe (c : Char) : Char :=
  if c = '-' then '+' else if c = '_' then '/' else c

/-- `bufferToBase64Url` (part_003 lines 216-224): bytes → `btoa` → URL-safe
replacements → strip `=`. -/
def bufferToBase64Url (bytes : List Nat) : List Char :=
  ((btoaChunks bytes).map toUrlSafe).filter fun c => c != '='

/-- `base64UrlToBuffer` (part_003 lines 205-214): undo the URL-safe
replacements, `padEnd` with `=` to a multiple of 4, and decode with `atob`. -/
def base64UrlToBuffer (s : List Char) : List Nat :=
  atobModel ((s.map fromUrlSafe) ++
    List.replicate ((4 - (s.map fromUrlSafe).length % 4) % 4) '=')

theorem roundCharAux : ∀ n < 64,
    charToSextet (fromUrlSafe (toUrlSafe (sextetToChar n))) = n ∧
    toUrlSafe (sextetToChar n) ≠ '=' := by decide

theorem toUrlSafe_not_plus (c : Char) : toUrlSafe c ≠ '+' := by
  unfold toUrlSafe
  split_ifs with h1 h2
  · decide
  · decide
  · exact h1

theorem toUrlSafe_not_slash (c : Char) : toUrlSafe c ≠ '/' := by
  unfold toUrlSafe
  split_ifs with h1 h2
  · decide
  · decide
  · exact h2

theorem toUrlSafe_eq_pad {c : Char} (h : toUrlSafe c = '=') : c = '=' := by
  unfold toUrlSafe at h
  split_ifs at h
  · exact absurd h (by decide)
  · exact absurd h (by decide)
  · exact h

theorem fromUrlSafe_ne_pad {c : Char} (h : c ≠ '=') : fromUrlSafe c ≠ '=' := by
  unfold fromUrlSafe
  split_ifs
  · decide
  · decide
  · exact h

/-- Stripping `=` commutes with the URL-safe replacement (which fixes `=` and
never produces it). -/
theorem filter_pad_map_toUrlSafe (l : List Char) :
    (l.map toUrlSafe).filter (fun c => c != '=') =
      (l.filter fun c => c != '=').map toUrlSafe := by
  induction l with
  | nil => rfl
  | cons c l ih =>
    by_cases h : c = '='
    · subst h
      have he : toUrlSafe '=' = '=' := by decide
      simp [List.filter_cons, he, ih]
    · have h2 : toUrlSafe c ≠ '=' := fun hc => h (toUrlSafe_eq_pad hc)
      simp [List.filter_cons, h, h2, ih]

theorem btoaChunks_filter (b : List Nat) :
    ((btoaChunks b).filter fun c => c != '=') = (b64Sextets b).map sextetToChar := by
  have hne : ∀ n, sextetToChar n ≠ '=' := by
    intro n
    rcases Nat.lt_or_ge n 64 with h | h
    · revert h
      revert n
      decide
    · rw [sextetToChar, List.getD_eq_default]
      · decide
      · simpa [b64Alphabet] using h
  induction b using btoaChunks.induct with
  | case1 a b c rest ih =>
    rw [btoaChunks, b64Sextets]
    simp [List.filter_cons, hne, ih]
  | case2 a b =>
    rw [btoaChunks, b64Sextets]
    simp [hne]
  | case3 a =>
    rw [btoaChunks, b64Sextets]
    simp [hne]
  | case4 => rfl

theorem b64Sextets_lt (b : List Nat) (hb : ∀ x ∈ b, x < 256) :
    ∀ n ∈ b64Sextets b, n < 64 := by
  induction b using b64Sextets.induct with
  | case1 a b c rest ih =>
    have ha : a < 256 := hb a (by simp)
    have hbb : b < 256 := hb b (by simp)
    have hc : c < 256 := hb c (by simp)
    intro n hn
    rw [b64Sextets] at hn
    simp only [List.mem_cons] at hn
    rcases hn with rfl | rfl | rfl | rfl | hn
    · omega
    · omega
    · omega
    · omega
    · exact ih (fun x hx => hb x (by simp [hx])) n hn
  | case2 a b =>
    have ha : a < 256 := hb a (by simp)
    have hbb : b < 256 := hb b (by simp)
    intro n hn
    rw [b64Sextets] at hn
    simp only [List.mem_cons, List.not_mem_nil, or_false] at hn
    rcases hn with rfl | rfl | rfl
    · omega
    · omega
    · omega
  | case3 a =>
    have ha : a < 256 := hb a (by simp)
    intro n hn
    rw [b64Sextets] at hn
    simp only [List.mem_cons, List.not_mem_nil, or_false] at hn
    rcases hn with rfl | rfl
    · omega
    · omega
  | case4 =>
    intro n hn
    simp [b64Sextets] at hn

theorem atobDecode_b64Sextets (b : List Nat) (hb : ∀ x ∈ b, x < 256) :
    atobDecode (b64Sextets b) = b := by
  induction b using b64Sextets.induct with
  | case1 a b c rest ih =>
    have ha : a < 256 := hb a (by simp)
    have hbb : b < 256 := hb b (by simp)
    have hc : c < 256 := hb c (by simp)
    rw [b64Sextets, atobDecode, ih (fun x hx => hb x (by simp [hx]))]
    have e1 : a / 4 * 4 + (a % 4 * 16 + b / 16) / 16 = a := by omega
    have e2 : (a % 4 * 16 + b / 16) % 16 * 16 + (b % 16 * 4 + c / 64) / 4 = b := by omega
    have e3 : (b % 16 * 4 + c / 64) % 4 * 64 + c % 64 = c := by omega
    rw [e1, e2, e3]
  | case2 a b =>
    have ha : a < 256 := hb a (by simp)
    have hbb : b < 256 := hb b (by simp)
    rw [b64Sextets, atobDecode]
    have e1 : a / 4 * 4 + (a % 4 * 16 + b / 16) / 16 = a := by omega
    have e2 : (a % 4 * 16 + b / 16) % 16 * 16 + b % 16 * 4 / 4 = b := by omega
    rw [e1, e2]
  | case3 a =>
    have ha : a < 256 := hb a (by simp)
    rw [b64Sextets, atobDecode]
    have e1 : a / 4 * 4 + a % 4 * 16 / 16 = a := by omega
    rw [e1]
  | case4 => rfl

/-- Claim C9: `base64UrlToBuffer` inverts `bufferToBase64Url` byte for byte,
and the produced string is URL-safe — it contains no `+`, `/` or `=`. -/
theorem base64url_roundtrip (b : List Nat) (hb : ∀ x ∈ b, x < 256) :
    base64UrlToBuffer (bufferToBase64Url b) = b ∧
    ∀ c ∈ bufferToBase64Url b, c ≠ '+' ∧ c ≠ '/' ∧ c ≠ '=' := by
  have hurl : bufferToBase64Url b =
      ((b64Sextets b).map sextetToChar).map toUrlSafe := by
    rw [bufferToBase64Url, filter_pad_map_toUrlSafe, btoaChunks_filter]
  constructor
  · rw [base64UrlToBuffer, atobModel, List.filter_append]
    have hrep : (List.replicate ((4 - ((bufferToBase64Url b).map fromUrlSafe).length % 4) % 4)
        '=').filter (fun c => c != '=') = [] := by
      generalize (4 - ((bufferToBase64Url b).map fromUrlSafe).length % 4) % 4 = k
      induction k with
      | zero => rfl
      | succ k ih => simpa [List.replicate_succ, List.filter_cons] using ih
    rw [hrep, List.append_nil]
    have hkeep : ((bufferToBase64Url b).map fromUrlSafe).filter (fun c => c != '=') =
        (bufferToBase64Url b).map fromUrlSafe := by
      rw [List.filter_eq_self]
      intro c hc
      rcases List.mem_map.mp hc with ⟨c0, hc0, rfl⟩
      have hc0ne : c0 ≠ '=' := by
        rw [bufferToBase64Url] at hc0
        simpa using (List.mem_filter.mp hc0).2
      simpa using fromUrlSafe_ne_pad hc0ne
    rw [hkeep, hurl, List.map_map, List.map_map, List.map_map]
    simp only [Function.comp_def]
    have hmap : (b64Sextets b).map
        (fun n => charToSextet (fromUrlSafe (toUrlSafe (sextetToChar n)))) = b64Sextets b := by
      have hid : ∀ n ∈ b64Sextets b,
          charToSextet (fromUrlSafe (toUrlSafe (sextetToChar n))) = id n := by
        intro n hn
        exact (roundCharAux n (b64Sextets_lt b hb n hn)).1
      rw [List.map_congr_left hid, List.map_id]
    rw [hmap]
    exact atobDecode_b64Sextets b hb
  · intro c hc
    rw [bufferToBase64Url] at hc
    rcases List.mem_filter.mp hc with ⟨hc1, hc2⟩
    rcases List.mem_map.mp hc1 with ⟨c0, -, rfl⟩
    exact ⟨toUrlSafe_not_plus c0, toUrlSafe_not_slash c0, by simpa using hc2⟩

/-- Witness for C9: the three-byte buffer `[0, 1, 255]` round-trips and its
encoding is URL-safe. -/
theorem base64url_roundtrip_witness :
    base64UrlToBuffer (bufferToBase64Url [0, 1, 255]) = [0, 1, 255] ∧
    '+' ∉ bufferToBase64Url [0, 1, 255] ∧
    '/' ∉ bufferToBase64Url [0, 1, 255] ∧
    '=' ∉ bufferToBase64Url [0, 1, 255] :=
  ⟨(base64url_roundtrip [0, 1, 255] (by decide)).1,
   fun h => ((base64url_roundtrip [0, 1, 255] (by decide)).2 _ h).1 rfl,
   fun h => ((base64url_roundtrip [0, 1, 255] (by decide)).2 _ h).2.1 rfl,
   fun h => ((base64url_roundtrip [0, 1, 255] (by decide)).2 _ h).2.2 rfl⟩

end Flow
